import Mathlib

/-!
Shallow embedding of the WAD-archive reading core of the doompp
repository (src/src/main.cpp): byte cursor, header parsing, directory
parsing with a first-occurrence name map, lump data extraction, and the
multi-archive manager.  A file is modelled as a list of bytes
(each a Nat below 256); C++ exceptions are modelled by Except with an
explicit error kind; 32-bit signed machine integers are modelled as Int
with explicit reduction modulo 2^32 where overflow matters.
-/

/-- Error kinds thrown by the WAD code.  The C++ code throws
std::domain_error with distinct messages; we keep the distinctions as
constructors, carrying the lump name where the message names a lump. -/
inductive WadErr where
  | shortRead : WadErr
  | invalidId : WadErr
  | invalidNumLumps : WadErr
  | invalidDirOfs : WadErr
  | invalidLumpPos : List Nat → WadErr
  | invalidLumpSize : List Nat → WadErr
  | outOfRange : WadErr
  | notFound : List Nat → WadErr
deriving DecidableEq, Repr

/-- The InvalidFormat class of errors: header or directory-entry
validation failures (spec section 7). -/
def WadErr.isInvalidFormat : WadErr → Bool
  | .invalidId => true
  | .invalidNumLumps => true
  | .invalidDirOfs => true
  | .invalidLumpPos _ => true
  | .invalidLumpSize _ => true
  | _ => false

/-- Interpret a Nat below 2^32 as a signed 32-bit value. -/
def toSigned32 (n : Nat) : Int :=
  if n % 2 ^ 32 < 2 ^ 31 then ((n % 2 ^ 32 : Nat) : Int)
  else ((n % 2 ^ 32 : Nat) : Int) - 2 ^ 32

/-- Reduce an Int to the signed 32-bit value with the same residue
modulo 2^32 (two's-complement wraparound). -/
def int32wrap (i : Int) : Int :=
  (i + 2 ^ 31) % 2 ^ 32 - 2 ^ 31

/-- Little-endian byte list to Nat. -/
def bytesLE : List Nat → Nat
  | [] => 0
  | b :: bs => b % 256 + 256 * bytesLE bs

/-- WadReader: an open binary file with a read position
(std::ifstream opened in binary mode). -/
structure WadReader where
  data : List Nat
  pos : Nat
deriving DecidableEq, Repr

/-- WadReader::seek — seekg to an absolute offset. -/
def WadReader.seek (r : WadReader) (ofs : Int) : WadReader :=
  { r with pos := ofs.toNat }

/-- WadReader::read — extract exactly count bytes at the current
position; a short extraction throws (here: shortRead). -/
def WadReader.read (r : WadReader) (count : Nat) : Except WadErr (List Nat × WadReader) :=
  if count ≤ r.data.length - r.pos then
    .ok ((r.data.drop r.pos).take count, { r with pos := r.pos + count })
  else
    .error .shortRead

/-- WadReader::readInt — 4 bytes, little-endian, signed 32-bit. -/
def WadReader.readInt (r : WadReader) : Except WadErr (Int × WadReader) :=
  match r.read 4 with
  | .error e => .error e
  | .ok (bs, r1) => .ok (toSigned32 (bytesLE bs), r1)

/-- WadReader::readShort — 2 bytes, little-endian, signed 16-bit. -/
def WadReader.readShort (r : WadReader) : Except WadErr (Int × WadReader) :=
  match r.read 2 with
  | .error e => .error e
  | .ok (bs, r1) =>
      .ok (if bytesLE bs % 2 ^ 16 < 2 ^ 15 then ((bytesLE bs % 2 ^ 16 : Nat) : Int)
           else ((bytesLE bs % 2 ^ 16 : Nat) : Int) - 2 ^ 16, r1)

/-- WadReader::readString — read size bytes, return the prefix before
the first nul byte (trailing bytes after a nul are discarded). -/
def WadReader.readString (r : WadReader) (size : Nat) : Except WadErr (List Nat × WadReader) :=
  match r.read size with
  | .error e => .error e
  | .ok (buffer, r1) => .ok (buffer.takeWhile (fun b => b != 0), r1)

/-- The ASCII bytes of the tag IWAD. -/
def iwadId : List Nat := [73, 87, 65, 68]

/-- The ASCII bytes of the tag PWAD. -/
def pwadId : List Nat := [80, 87, 65, 68]

/-- WadHeader: id tag, number of lumps, directory offset. -/
structure WadHeader where
  id : List Nat
  num_lumps : Int
  directory_ofs : Int
deriving DecidableEq, Repr

/-- WadHeader constructor: read the three fields, then validate id,
lump count and directory offset in that order. -/
def mkWadHeader (reader : WadReader) : Except WadErr (WadHeader × WadReader) :=
  match reader.readString 4 with
  | .error e => .error e
  | .ok (id, r1) =>
    match r1.readInt with
    | .error e => .error e
    | .ok (num_lumps, r2) =>
      match r2.readInt with
      | .error e => .error e
      | .ok (directory_ofs, r3) =>
        if id ≠ iwadId ∧ id ≠ pwadId then .error .invalidId
        else if num_lumps ≤ 0 then .error .invalidNumLumps
        else if directory_ofs ≤ 0 then .error .invalidDirOfs
        else .ok (⟨id, num_lumps, directory_ofs⟩, r3)

/-- WadLump: a directory descriptor (position, size, name). -/
structure WadLump where
  position : Int
  size : Int
  name : List Nat
deriving DecidableEq, Repr

/-- WadLump constructor: read position, size and the 8-byte name, then
reject a negative position, then a negative size, naming the lump. -/
def mkWadLump (reader : WadReader) : Except WadErr (WadLump × WadReader) :=
  match reader.readInt with
  | .error e => .error e
  | .ok (position, r1) =>
    match r1.readInt with
    | .error e => .error e
    | .ok (size, r2) =>
      match r2.readString 8 with
      | .error e => .error e
      | .ok (name, r3) =>
        if position < 0 then .error (.invalidLumpPos name)
        else if size < 0 then .error (.invalidLumpSize name)
        else .ok (⟨position, size, name⟩, r3)

/-- WadLump::isMarker — a lump of size 0 is a marker. -/
def WadLump.isMarker (l : WadLump) : Bool :=
  l.size == 0

/-- Lookup in the name-to-index map (std::unordered_map find),
modelled as an association list. -/
def lookupMap : List (List Nat × Int) → List Nat → Option Int
  | [], _ => none
  | (k, v) :: rest, key => if k = key then some v else lookupMap rest key

/-- std::unordered_map::try_emplace — insert the pair only when the key
is not already present. -/
def tryEmplace (m : List (List Nat × Int)) (k : List Nat) (v : Int) : List (List Nat × Int) :=
  match lookupMap m k with
  | some _ => m
  | none => m ++ [(k, v)]

/-- WadDirectory: the descriptor list in on-disk order plus the
name-to-first-index map. -/
structure WadDirectory where
  lumps : List WadLump
  lump_map : List (List Nat × Int)
deriving DecidableEq, Repr

/-- The directory-construction loop: read the remaining descriptors,
appending each to the list and try_emplacing its name at index i. -/
def readLumps (r : WadReader) (lumps : List WadLump) (lump_map : List (List Nat × Int))
    (i : Nat) : Nat → Except WadErr (List WadLump × List (List Nat × Int) × WadReader)
  | 0 => .ok (lumps, lump_map, r)
  | remaining + 1 =>
    match mkWadLump r with
    | .error e => .error e
    | .ok (l, r1) =>
        readLumps r1 (lumps ++ [l]) (tryEmplace lump_map l.name (Int.ofNat i)) (i + 1) remaining

/-- WadDirectory constructor: seek to the directory offset and read
num_lumps descriptors. -/
def mkWadDirectory (reader : WadReader) (header : WadHeader) :
    Except WadErr (WadDirectory × WadReader) :=
  match readLumps (reader.seek header.directory_ofs) [] [] 0 header.num_lumps.toNat with
  | .error e => .error e
  | .ok (lumps, lump_map, r1) => .ok (⟨lumps, lump_map⟩, r1)

/-- WadDirectory::searchLump — map lookup, nullopt when absent. -/
def WadDirectory.searchLump (d : WadDirectory) (lump_name : List Nat) : Option Int :=
  lookupMap d.lump_map lump_name

/-- WadDirectory::getLump — bounds-checked descriptor access. -/
def WadDirectory.getLump (d : WadDirectory) (lump_index : Int) : Except WadErr WadLump :=
  if h : lump_index < 0 ∨ (d.lumps.length : Int) ≤ lump_index then .error .outOfRange
  else .ok (d.lumps.get ⟨lump_index.toNat, by omega⟩)

/-- WadFile: reader, header and directory of one open archive. -/
structure WadFile where
  reader : WadReader
  header : WadHeader
  directory : WadDirectory
deriving DecidableEq, Repr

/-- WadFile constructor: open the file, parse the header, then the
directory, propagating any failure (no partial archive value exists). -/
def mkWadFile (data : List Nat) : Except WadErr WadFile :=
  match mkWadHeader ⟨data, 0⟩ with
  | .error e => .error e
  | .ok (header, r1) =>
    match mkWadDirectory r1 header with
    | .error e => .error e
    | .ok (directory, r2) => .ok ⟨r2, header, directory⟩

/-- WadFile::searchLump — delegate to the directory. -/
def WadFile.searchLump (f : WadFile) (lump_name : List Nat) : Option Int :=
  f.directory.searchLump lump_name

/-- WadFile::getLump — delegate to the directory. -/
def WadFile.getLump (f : WadFile) (lump_index : Int) : Except WadErr WadLump :=
  f.directory.getLump lump_index

/-- WadFile::getLumpData — look up the descriptor, seek to its
position, read exactly size bytes into a fresh buffer. -/
def WadFile.getLumpData (f : WadFile) (lump_index : Int) :
    Except WadErr (List Nat × WadFile) :=
  match f.getLump lump_index with
  | .error e => .error e
  | .ok lump =>
    match (f.reader.seek lump.position).read lump.size.toNat with
    | .error e => .error e
    | .ok (lump_data, r1) => .ok (lump_data, { f with reader := r1 })

/-- LumpIndex: a resolution handle, archive index plus within-archive
lump index. -/
structure LumpIndex where
  wad : Nat
  lump : Int
deriving DecidableEq, Repr

/-- operator+(LumpIndex, Sint32): same archive, lump index advanced by
inc with 32-bit signed wraparound. -/
def LumpIndex.add (index : LumpIndex) (inc : Int) : LumpIndex :=
  ⟨index.wad, int32wrap (index.lump + inc)⟩

/-- operator+(Sint32, LumpIndex): defined as index + inc. -/
def LumpIndex.addLeft (inc : Int) (index : LumpIndex) : LumpIndex :=
  index.add inc

/-- WadManager: the ordered archive list. -/
structure WadManager where
  files : List WadFile
deriving DecidableEq, Repr

/-- The scan loop of WadManager::searchLump: try files in order
starting at position index i, returning the first hit. -/
def searchLumpAux : List WadFile → Nat → List Nat → Option LumpIndex
  | [], _, _ => none
  | f :: rest, i, lump_name =>
    match f.searchLump lump_name with
    | some lump => some ⟨i, lump⟩
    | none => searchLumpAux rest (i + 1) lump_name

/-- WadManager::searchLump — scan archives from index 0 upward. -/
def WadManager.searchLump (m : WadManager) (lump_name : List Nat) : Option LumpIndex :=
  searchLumpAux m.files 0 lump_name

/-- WadManager::addWad — emplace_back a newly constructed WadFile; if
construction throws, the vector is unchanged (strong guarantee of
emplace_back).  Returns the new state and the error, if any. -/
def WadManager.addWad (m : WadManager) (wad_file : List Nat) : WadManager × Option WadErr :=
  match mkWadFile wad_file with
  | .error e => (m, some e)
  | .ok f => (⟨m.files ++ [f]⟩, none)

/-- WadManager::hasLump — whether searchLump finds the name. -/
def WadManager.hasLump (m : WadManager) (lump_name : List Nat) : Bool :=
  (m.searchLump lump_name).isSome

/-- WadManager::getLumpIndex — the searchLump result, or a NotFound
error naming the lump. -/
def WadManager.getLumpIndex (m : WadManager) (lump_name : List Nat) :
    Except WadErr LumpIndex :=
  match m.searchLump lump_name with
  | some lump_index => .ok lump_index
  | none => .error (.notFound lump_name)

/-- Modelled from the spec: the index of the first descriptor (in
on-disk order) bearing the given name, used to compare the map built by
the directory constructor against the first-occurrence rule the spec
states. -/
def specFirstIndex : List WadLump → List Nat → Option Nat
  | [], _ => none
  | l :: rest, key =>
    if l.name = key then some 0 else (specFirstIndex rest key).map (· + 1)

/-- The correspondence the directory constructor maintains between the
name map and the descriptor list: looking a name up in the map gives
exactly the index of its first occurrence among the descriptors. -/
def MapInv (lump_map : List (List Nat × Int)) (lumps : List WadLump) : Prop :=
  ∀ key, lookupMap lump_map key = (specFirstIndex lumps key).map Int.ofNat

/-- The name THINGS as ASCII bytes. -/
def thingsName : List Nat := [84, 72, 73, 78, 71, 83]

/-- The name E1M1 as ASCII bytes. -/
def e1m1Name : List Nat := [69, 49, 77, 49]

/-- A well-formed concrete IWAD file: header (tag IWAD, 2 lumps,
directory at 12), two descriptors (THINGS at 44 size 2, marker E1M1 at
46 size 0), then 2 data bytes. -/
def goodWad : List Nat :=
  [73, 87, 65, 68, 2, 0, 0, 0, 12, 0, 0, 0,
   44, 0, 0, 0, 2, 0, 0, 0, 84, 72, 73, 78, 71, 83, 0, 0,
   46, 0, 0, 0, 0, 0, 0, 0, 69, 49, 77, 49, 0, 0, 0, 0,
   171, 205]

/-- The archive value that parsing goodWad produces. -/
def goodFile : WadFile :=
  ⟨⟨goodWad, 44⟩, ⟨iwadId, 2, 12⟩,
   ⟨[⟨44, 2, thingsName⟩, ⟨46, 0, e1m1Name⟩],
    [(thingsName, 0), (e1m1Name, 1)]⟩⟩

/-- A concrete PWAD whose single directory entry has position -1. -/
def badWadNegPos : List Nat :=
  [80, 87, 65, 68, 1, 0, 0, 0, 12, 0, 0, 0,
   255, 255, 255, 255, 0, 0, 0, 0, 88, 88, 0, 0, 0, 0, 0, 0]

/-- A 12-byte file whose tag ZWAD is not a WAD tag. -/
def badTagWad : List Nat :=
  [90, 87, 65, 68, 1, 0, 0, 0, 12, 0, 0, 0]

/-- A tiny archive value used for manager-level witnesses: one lump
named XX at index 0. -/
def tinyFileA : WadFile :=
  ⟨⟨[], 0⟩, ⟨iwadId, 1, 12⟩, ⟨[⟨0, 0, [88, 88]⟩], [([88, 88], 0)]⟩⟩

/-- A second tiny archive value also containing a lump named XX. -/
def tinyFileB : WadFile :=
  ⟨⟨[], 0⟩, ⟨pwadId, 1, 12⟩, ⟨[⟨0, 0, [89, 89]⟩, ⟨0, 0, [88, 88]⟩],
   [([89, 89], 0), ([88, 88], 1)]⟩⟩

theorem WadReader.read_ok {r : WadReader} {n : Nat} {bs : List Nat} {r1 : WadReader}
    (h : r.read n = .ok (bs, r1)) :
    bs = (r.data.drop r.pos).take n ∧ bs.length = n ∧
      r1 = { r with pos := r.pos + n } ∧ n ≤ r.data.length - r.pos := by
  unfold WadReader.read at h
  split at h
  · rename_i hle
    simp only [Except.ok.injEq, Prod.mk.injEq] at h
    refine ⟨h.1.symm, ?_, h.2.symm, hle⟩
    rw [← h.1]
    simp only [List.length_take, List.length_drop]
    omega
  · exact Except.noConfusion h

theorem WadReader.read_of_le {r : WadReader} {n : Nat} (hle : n ≤ r.data.length - r.pos) :
    r.read n = .ok ((r.data.drop r.pos).take n, { r with pos := r.pos + n }) := by
  unfold WadReader.read
  rw [if_pos hle]

theorem WadReader.read_zero (r : WadReader) : r.read 0 = .ok ([], r) := by
  unfold WadReader.read
  simp

theorem WadReader.readInt_ok {r : WadReader} {v : Int} {r1 : WadReader}
    (h : r.readInt = .ok (v, r1)) :
    v = toSigned32 (bytesLE ((r.data.drop r.pos).take 4)) ∧
      r1 = { r with pos := r.pos + 4 } ∧ 4 ≤ r.data.length - r.pos := by
  unfold WadReader.readInt at h
  cases hr : r.read 4 with
  | error e => rw [hr] at h; exact Except.noConfusion h
  | ok p =>
    obtain ⟨bs, r2⟩ := p
    rw [hr] at h
    simp only [Except.ok.injEq, Prod.mk.injEq] at h
    obtain ⟨hb, hbl, hr2, hle⟩ := WadReader.read_ok hr
    exact ⟨by rw [← h.1, hb], by rw [← h.2, hr2], hle⟩

theorem WadReader.readInt_of_le {r : WadReader} (hle : 4 ≤ r.data.length - r.pos) :
    r.readInt = .ok (toSigned32 (bytesLE ((r.data.drop r.pos).take 4)),
      { r with pos := r.pos + 4 }) := by
  unfold WadReader.readInt
  rw [WadReader.read_of_le hle]

theorem WadReader.readString_ok {r : WadReader} {n : Nat} {s : List Nat} {r1 : WadReader}
    (h : r.readString n = .ok (s, r1)) :
    s = ((r.data.drop r.pos).take n).takeWhile (fun b => b != 0) ∧
      r1 = { r with pos := r.pos + n } ∧ n ≤ r.data.length - r.pos := by
  unfold WadReader.readString at h
  cases hr : r.read n with
  | error e => rw [hr] at h; exact Except.noConfusion h
  | ok p =>
    obtain ⟨bs, r2⟩ := p
    rw [hr] at h
    simp only [Except.ok.injEq, Prod.mk.injEq] at h
    obtain ⟨hb, hbl, hr2, hle⟩ := WadReader.read_ok hr
    exact ⟨by rw [← h.1, hb], by rw [← h.2, hr2], hle⟩

theorem WadReader.readString_of_le {r : WadReader} {n : Nat} (hle : n ≤ r.data.length - r.pos) :
    r.readString n = .ok (((r.data.drop r.pos).take n).takeWhile (fun b => b != 0),
      { r with pos := r.pos + n }) := by
  unfold WadReader.readString
  rw [WadReader.read_of_le hle]

theorem mkWadHeader_ok {r : WadReader} {hd : WadHeader} {r1 : WadReader}
    (h : mkWadHeader r = .ok (hd, r1)) :
    (hd.id = iwadId ∨ hd.id = pwadId) ∧ 0 < hd.num_lumps ∧ 0 < hd.directory_ofs := by
  unfold mkWadHeader at h
  cases h0 : r.readString 4 with
  | error e => rw [h0] at h; exact Except.noConfusion h
  | ok p0 =>
    obtain ⟨id, ra⟩ := p0
    rw [h0] at h
    simp only [] at h
    cases h1 : ra.readInt with
    | error e => rw [h1] at h; exact Except.noConfusion h
    | ok p1 =>
      obtain ⟨nl, rb⟩ := p1
      rw [h1] at h
      simp only [] at h
      cases h2 : rb.readInt with
      | error e => rw [h2] at h; exact Except.noConfusion h
      | ok p2 =>
        obtain ⟨ofs, rc⟩ := p2
        rw [h2] at h
        simp only [] at h
        split at h
        · exact Except.noConfusion h
        · rename_i hid
          split at h
          · exact Except.noConfusion h
          · rename_i hnl
            split at h
            · exact Except.noConfusion h
            · rename_i hofs
              simp only [Except.ok.injEq, Prod.mk.injEq, not_and_or, not_not] at h hid
              obtain ⟨hhd, -⟩ := h
              subst hhd
              show (id = iwadId ∨ id = pwadId) ∧ 0 < nl ∧ 0 < ofs
              exact ⟨by tauto, by omega, by omega⟩

theorem mkWadLump_ok {r : WadReader} {l : WadLump} {r1 : WadReader}
    (h : mkWadLump r = .ok (l, r1)) : 0 ≤ l.position ∧ 0 ≤ l.size := by
  unfold mkWadLump at h
  cases h0 : r.readInt with
  | error e => rw [h0] at h; exact Except.noConfusion h
  | ok p0 =>
    obtain ⟨pos, ra⟩ := p0
    rw [h0] at h
    simp only [] at h
    cases h1 : ra.readInt with
    | error e => rw [h1] at h; exact Except.noConfusion h
    | ok p1 =>
      obtain ⟨sz, rb⟩ := p1
      rw [h1] at h
      simp only [] at h
      cases h2 : rb.readString 8 with
      | error e => rw [h2] at h; exact Except.noConfusion h
      | ok p2 =>
        obtain ⟨nm, rc⟩ := p2
        rw [h2] at h
        simp only [] at h
        split at h
        · exact Except.noConfusion h
        · split at h
          · exact Except.noConfusion h
          · rename_i hp hs
            simp only [Except.ok.injEq, Prod.mk.injEq] at h
            obtain ⟨hl, -⟩ := h
            subst hl
            show 0 ≤ pos ∧ 0 ≤ sz
            exact ⟨by omega, by omega⟩


theorem lookupMap_append (m : List (List Nat × Int)) (k : List Nat) (v : Int) (key : List Nat) :
    lookupMap (m ++ [(k, v)]) key =
      match lookupMap m key with
      | some w => some w
      | none => if k = key then some v else none := by
  induction m with
  | nil => rfl
  | cons p rest ih =>
    obtain ⟨a, b⟩ := p
    by_cases hak : a = key
    · simp [lookupMap, hak]
    · have hstep : lookupMap (((a, b) :: rest) ++ [(k, v)]) key =
          lookupMap (rest ++ [(k, v)]) key := by
        simp [List.cons_append, lookupMap, hak]
      have hstep2 : lookupMap ((a, b) :: rest) key = lookupMap rest key := by
        simp [lookupMap, hak]
      rw [hstep, ih, hstep2]

theorem specFirstIndex_append (lumps : List WadLump) (l : WadLump) (key : List Nat) :
    specFirstIndex (lumps ++ [l]) key =
      match specFirstIndex lumps key with
      | some j => some j
      | none => if l.name = key then some lumps.length else none := by
  induction lumps with
  | nil =>
    by_cases h : l.name = key
    · simp [specFirstIndex, h]
    · simp [specFirstIndex, h]
  | cons a rest ih =>
    by_cases h : a.name = key
    · simp [specFirstIndex, h]
    · have hstep : specFirstIndex ((a :: rest) ++ [l]) key =
          (specFirstIndex (rest ++ [l]) key).map (· + 1) := by
        simp [List.cons_append, specFirstIndex, h]
      have hstep2 : specFirstIndex (a :: rest) key =
          (specFirstIndex rest key).map (· + 1) := by
        simp [specFirstIndex, h]
      rw [hstep, ih, hstep2]
      cases hr : specFirstIndex rest key with
      | some j => rfl
      | none =>
        by_cases hl : l.name = key
        · simp [hl]
        · simp [hl]

theorem specFirstIndex_some {lumps : List WadLump} {key : List Nat} {k : Nat}
    (h : specFirstIndex lumps key = some k) :
    k < lumps.length ∧ (∃ l, lumps.get? k = some l ∧ l.name = key) ∧
      ∀ j, j < k → ∀ l, lumps.get? j = some l → l.name ≠ key := by
  induction lumps generalizing k with
  | nil => exact Option.noConfusion h
  | cons a rest ih =>
    by_cases ha : a.name = key
    · rw [specFirstIndex, if_pos ha] at h
      injection h with h
      subst h
      exact ⟨by simp, ⟨a, rfl, ha⟩, fun j hj => absurd hj (Nat.not_lt_zero j)⟩
    · rw [specFirstIndex, if_neg ha] at h
      cases hr : specFirstIndex rest key with
      | none => rw [hr] at h; exact Option.noConfusion h
      | some k0 =>
        rw [hr] at h
        simp only [Option.map_some', Option.some.injEq] at h
        subst h
        obtain ⟨hlt, ⟨l, hget, hname⟩, hfirst⟩ := ih hr
        refine ⟨by simp; omega, ⟨l, by simpa using hget, hname⟩, ?_⟩
        intro j hj l0 hget0
        cases j with
        | zero =>
          simp only [List.get?_cons_zero, Option.some.injEq] at hget0
          subst hget0
          exact ha
        | succ j0 =>
          simp only [List.get?_cons_succ] at hget0
          exact hfirst j0 (by omega) l0 hget0

theorem specFirstIndex_none {lumps : List WadLump} {key : List Nat} :
    specFirstIndex lumps key = none ↔ ∀ l ∈ lumps, l.name ≠ key := by
  induction lumps with
  | nil => simp [specFirstIndex]
  | cons a rest ih =>
    by_cases ha : a.name = key
    · simp [specFirstIndex, ha]
    · simp [specFirstIndex, ha, ih]

theorem mapInv_nil : MapInv [] [] := by
  intro key
  rfl

theorem mapInv_step {m : List (List Nat × Int)} {lumps : List WadLump}
    (h : MapInv m lumps) (l : WadLump) :
    MapInv (tryEmplace m l.name (Int.ofNat lumps.length)) (lumps ++ [l]) := by
  intro key
  unfold tryEmplace
  rw [specFirstIndex_append]
  cases hl : lookupMap m l.name with
  | some w =>
    rw [h key]
    cases hs : specFirstIndex lumps key with
    | some j => rfl
    | none =>
      have hkey : ¬ l.name = key := by
        intro hk
        have hc := h key
        rw [hs, ← hk, hl] at hc
        exact Option.noConfusion hc
      simp [hkey]
  | none =>
    rw [lookupMap_append, h key]
    cases hs : specFirstIndex lumps key with
    | some j => rfl
    | none =>
      by_cases hkey : l.name = key
      · simp [hkey]
      · simp [hkey]

theorem readLumps_split (a b : Nat) :
    ∀ (r : WadReader) (lumps : List WadLump) (m : List (List Nat × Int)) (i : Nat),
    readLumps r lumps m i (a + b) =
      match readLumps r lumps m i a with
      | .error e => .error e
      | .ok (L, M, r2) => readLumps r2 L M (i + a) b := by
  induction a with
  | zero =>
    intro r lumps m i
    simp [readLumps]
  | succ a0 ih =>
    intro r lumps m i
    have hsum : a0 + 1 + b = (a0 + b) + 1 := by omega
    rw [hsum]
    cases hm : mkWadLump r with
    | error e =>
      simp only [readLumps, hm]
    | ok p =>
      obtain ⟨l, r1⟩ := p
      simp only [readLumps, hm]
      rw [ih]
      have hi : i + 1 + a0 = i + (a0 + 1) := by omega
      rw [hi]

theorem readLumps_invariant :
    ∀ (remaining : Nat) (r : WadReader) (lumps : List WadLump) (m : List (List Nat × Int))
      (L : List WadLump) (M : List (List Nat × Int)) (r2 : WadReader),
    readLumps r lumps m lumps.length remaining = .ok (L, M, r2) → MapInv m lumps →
    MapInv M L ∧ L.length = lumps.length + remaining ∧
      ∀ l ∈ L, l ∈ lumps ∨ (0 ≤ l.position ∧ 0 ≤ l.size) := by
  intro remaining
  induction remaining with
  | zero =>
    intro r lumps m L M r2 h hinv
    simp only [readLumps, Except.ok.injEq, Prod.mk.injEq] at h
    obtain ⟨h1, h2, h3⟩ := h
    subst h1 h2
    exact ⟨hinv, by omega, fun l hl => Or.inl hl⟩
  | succ rem ih =>
    intro r lumps m L M r2 h hinv
    rw [readLumps] at h
    cases hm : mkWadLump r with
    | error e => rw [hm] at h; exact Except.noConfusion h
    | ok p =>
      obtain ⟨l, r1⟩ := p
      rw [hm] at h
      simp only [] at h
      have hlen : (lumps ++ [l]).length = lumps.length + 1 := by simp
      rw [← hlen] at h
      obtain ⟨hinv2, hlen2, hmem⟩ := ih r1 (lumps ++ [l]) _ L M r2 h (mapInv_step hinv l)
      refine ⟨hinv2, by simp at hlen2; omega, ?_⟩
      intro l0 hl0
      rcases hmem l0 hl0 with hin | hnn
      · rcases List.mem_append.mp hin with hin2 | hin2
        · exact Or.inl hin2
        · simp only [List.mem_singleton] at hin2
          subst hin2
          exact Or.inr (mkWadLump_ok hm)
      · exact Or.inr hnn

theorem mkWadFile_ok {data : List Nat} {f : WadFile} (h : mkWadFile data = .ok f) :
    MapInv f.directory.lump_map f.directory.lumps ∧
      f.directory.lumps.length = f.header.num_lumps.toNat ∧
      (∀ l ∈ f.directory.lumps, 0 ≤ l.position ∧ 0 ≤ l.size) ∧
      0 < f.header.num_lumps ∧
      (f.header.id = iwadId ∨ f.header.id = pwadId) ∧ 0 < f.header.directory_ofs := by
  unfold mkWadFile at h
  cases hh : mkWadHeader ⟨data, 0⟩ with
  | error e => rw [hh] at h; exact Except.noConfusion h
  | ok p =>
    obtain ⟨hd, r1⟩ := p
    rw [hh] at h
    simp only [] at h
    cases hdir : mkWadDirectory r1 hd with
    | error e => rw [hdir] at h; exact Except.noConfusion h
    | ok p2 =>
      obtain ⟨d, r2⟩ := p2
      rw [hdir] at h
      simp only [Except.ok.injEq] at h
      subst h
      unfold mkWadDirectory at hdir
      cases hrl : readLumps (r1.seek hd.directory_ofs) [] [] 0 hd.num_lumps.toNat with
      | error e => rw [hrl] at hdir; exact Except.noConfusion hdir
      | ok p3 =>
        obtain ⟨L, M, r3⟩ := p3
        rw [hrl] at hdir
        simp only [Except.ok.injEq, Prod.mk.injEq] at hdir
        obtain ⟨hd2, -⟩ := hdir
        subst hd2
        have h0 : ([] : List WadLump).length = 0 := rfl
        rw [← h0] at hrl
        obtain ⟨hinv, hlen, hmem⟩ := readLumps_invariant _ _ _ _ _ _ _ hrl mapInv_nil
        obtain ⟨hid, hnl, hofs⟩ := mkWadHeader_ok hh
        refine ⟨hinv, by simpa using hlen, ?_, hnl, hid, hofs⟩
        intro l hl
        rcases hmem l hl with hin | hnn
        · exact absurd hin (List.not_mem_nil l)
        · exact hnn

theorem searchLumpAux_char (fs : List WadFile) :
    ∀ (i0 : Nat) (name : List Nat) (i : Nat) (l : Int),
    searchLumpAux fs i0 name = some ⟨i, l⟩ ↔
      ∃ k, i = i0 + k ∧
        (∃ f, fs.get? k = some f ∧ f.searchLump name = some l) ∧
        ∀ j, j < k → ∀ g, fs.get? j = some g → g.searchLump name = none := by
  induction fs with
  | nil =>
    intro i0 name i l
    simp [searchLumpAux]
  | cons f0 rest ih =>
    intro i0 name i l
    rw [searchLumpAux]
    cases hf0 : f0.searchLump name with
    | some l0 =>
      simp only []
      constructor
      · intro h
        simp only [Option.some.injEq, LumpIndex.mk.injEq] at h
        obtain ⟨hi, hl⟩ := h
        refine ⟨0, by omega, ⟨f0, rfl, by rw [hf0, hl]⟩, ?_⟩
        intro j hj
        exact absurd hj (Nat.not_lt_zero j)
      · rintro ⟨k, hik, ⟨f, hget, hsl⟩, hfirst⟩
        cases k with
        | zero =>
          simp only [List.get?_cons_zero, Option.some.injEq] at hget
          subst hget
          rw [hf0] at hsl
          injection hsl with hsl
          simp only [Option.some.injEq, LumpIndex.mk.injEq]
          exact ⟨by omega, hsl⟩
        | succ k0 =>
          have := hfirst 0 (by omega) f0 rfl
          rw [hf0] at this
          exact Option.noConfusion this
    | none =>
      simp only []
      rw [ih (i0 + 1) name i l]
      constructor
      · rintro ⟨k, hik, ⟨f, hget, hsl⟩, hfirst⟩
        refine ⟨k + 1, by omega, ⟨f, by simpa using hget, hsl⟩, ?_⟩
        intro j hj g hg
        cases j with
        | zero =>
          simp only [List.get?_cons_zero, Option.some.injEq] at hg
          subst hg
          exact hf0
        | succ j0 =>
          simp only [List.get?_cons_succ] at hg
          exact hfirst j0 (by omega) g hg
      · rintro ⟨k, hik, ⟨f, hget, hsl⟩, hfirst⟩
        cases k with
        | zero =>
          simp only [List.get?_cons_zero, Option.some.injEq] at hget
          subst hget
          rw [hf0] at hsl
          exact Option.noConfusion hsl
        | succ k0 =>
          simp only [List.get?_cons_succ] at hget
          refine ⟨k0, by omega, ⟨f, hget, hsl⟩, ?_⟩
          intro j hj g hg
          exact hfirst (j + 1) (by omega) g (by simpa using hg)

theorem searchLumpAux_none (fs : List WadFile) :
    ∀ (i0 : Nat) (name : List Nat),
    searchLumpAux fs i0 name = none ↔ ∀ f ∈ fs, f.searchLump name = none := by
  induction fs with
  | nil => intro i0 name; simp [searchLumpAux]
  | cons f0 rest ih =>
    intro i0 name
    rw [searchLumpAux]
    cases hf0 : f0.searchLump name with
    | some l0 => simp [hf0]
    | none => simp [hf0, ih (i0 + 1) name]

theorem getLump_ok_mem {f : WadFile} {i : Int} {l : WadLump}
    (h : f.getLump i = .ok l) : l ∈ f.directory.lumps := by
  unfold WadFile.getLump WadDirectory.getLump at h
  split at h
  · exact Except.noConfusion h
  · simp only [Except.ok.injEq] at h
    subst h
    exact List.get_mem _ _ _

theorem trimTag_iff {x : List Nat} (hx : x.length = 4) :
    (x.takeWhile (fun b => b != 0) = iwadId ∨ x.takeWhile (fun b => b != 0) = pwadId) ↔
      (x = iwadId ∨ x = pwadId) := by
  constructor
  · intro h
    have hpre : x.takeWhile (fun b => b != 0) <+: x := List.takeWhile_prefix _
    rcases h with h | h
    · left
      have hlen : (x.takeWhile (fun b => b != 0)).length = x.length := by
        rw [h, hx]; rfl
      rw [← hpre.eq_of_length hlen, h]
    · right
      have hlen : (x.takeWhile (fun b => b != 0)).length = x.length := by
        rw [h, hx]; rfl
      rw [← hpre.eq_of_length hlen, h]
  · intro h
    rcases h with h | h
    · left; rw [h]; rfl
    · right; rw [h]; rfl

theorem mkWadHeader_eq (r : WadReader) (h12 : 12 ≤ r.data.length - r.pos) :
    mkWadHeader r =
      (if ((r.data.drop r.pos).take 4).takeWhile (fun b => b != 0) ≠ iwadId ∧
          ((r.data.drop r.pos).take 4).takeWhile (fun b => b != 0) ≠ pwadId then
        .error .invalidId
      else if toSigned32 (bytesLE ((r.data.drop (r.pos + 4)).take 4)) ≤ 0 then
        .error .invalidNumLumps
      else if toSigned32 (bytesLE ((r.data.drop (r.pos + 8)).take 4)) ≤ 0 then
        .error .invalidDirOfs
      else
        .ok (⟨((r.data.drop r.pos).take 4).takeWhile (fun b => b != 0),
              toSigned32 (bytesLE ((r.data.drop (r.pos + 4)).take 4)),
              toSigned32 (bytesLE ((r.data.drop (r.pos + 8)).take 4))⟩,
             { r with pos := r.pos + 12 })) := by
  unfold mkWadHeader
  rw [WadReader.readString_of_le (by omega : (4 : Nat) ≤ r.data.length - r.pos)]
  simp only []
  rw [show ({ r with pos := r.pos + 4 } : WadReader).readInt =
      .ok (toSigned32 (bytesLE ((r.data.drop (r.pos + 4)).take 4)),
        { r with pos := r.pos + 8 }) from
    WadReader.readInt_of_le (by simp only []; omega)]
  simp only []
  rw [show ({ r with pos := r.pos + 8 } : WadReader).readInt =
      .ok (toSigned32 (bytesLE ((r.data.drop (r.pos + 8)).take 4)),
        { r with pos := r.pos + 12 }) from
    WadReader.readInt_of_le (by simp only []; omega)]

/-- Claim C2: for every successfully constructed archive and every name
occurring among its descriptors, findByName (searchLump) returns the
index of the first descriptor (in on-disk order) whose name matches;
later duplicates do not change the result.  Stated as: the map lookup
equals the first-occurrence index, and that index is genuinely the
first occurrence. -/
theorem claimC2 (data : List Nat) (f : WadFile) (hf : mkWadFile data = .ok f)
    (n : List Nat) :
    f.searchLump n = (specFirstIndex f.directory.lumps n).map Int.ofNat ∧
    ∀ k : Nat, specFirstIndex f.directory.lumps n = some k →
      f.searchLump n = some (Int.ofNat k) ∧
      (∃ l, f.directory.lumps.get? k = some l ∧ l.name = n) ∧
      ∀ j, j < k → ∀ l, f.directory.lumps.get? j = some l → l.name ≠ n := by
  have hinv := (mkWadFile_ok hf).1
  refine ⟨hinv n, ?_⟩
  intro k hk
  obtain ⟨hlt, hex, hfirst⟩ := specFirstIndex_some hk
  refine ⟨?_, hex, hfirst⟩
  have h2 := hinv n
  rw [hk] at h2
  exact h2

/-- Witness for C2 on a concrete archive. -/
theorem claimC2_witness :
    mkWadFile goodWad = .ok goodFile ∧
      goodFile.searchLump thingsName = some (Int.ofNat 0) := by
  have hf : mkWadFile goodWad = .ok goodFile := by rfl
  exact ⟨hf, ((claimC2 goodWad goodFile hf thingsName).2 0 (by rfl)).1⟩

/-- Claim C7: for a constructed archive, getDescriptor (getLump) fails
with OutOfRange exactly when the index is outside [0, lump_count), and
every in-range index returns a descriptor. -/
theorem claimC7 (data : List Nat) (f : WadFile) (hf : mkWadFile data = .ok f)
    (i : Int) :
    (f.getLump i = .error .outOfRange ↔ (i < 0 ∨ f.header.num_lumps ≤ i)) ∧
    (0 ≤ i → i < f.header.num_lumps → ∃ l, f.getLump i = .ok l) := by
  obtain ⟨-, hlen, -, hnl, -⟩ := mkWadFile_ok hf
  have hlen2 : (f.directory.lumps.length : Int) = f.header.num_lumps := by
    rw [hlen]; omega
  constructor
  · show f.directory.getLump i = .error .outOfRange ↔ _
    unfold WadDirectory.getLump
    split
    · rename_i hcond
      constructor
      · intro _
        omega
      · intro _
        rfl
    · rename_i hcond
      constructor
      · intro hcontra
        exact Except.noConfusion hcontra
      · intro hrange
        exfalso
        rw [not_or] at hcond
        omega
  · intro h0 h1
    show ∃ l, f.directory.getLump i = .ok l
    unfold WadDirectory.getLump
    split
    · rename_i hcond
      exfalso
      omega
    · exact ⟨_, rfl⟩

/-- Witness for C7 on a concrete archive: index 2 = lump_count is out
of range, index 0 is in range. -/
theorem claimC7_witness :
    goodFile.getLump 2 = .error .outOfRange ∧ ∃ l, goodFile.getLump 0 = .ok l := by
  have hf : mkWadFile goodWad = .ok goodFile := by rfl
  exact ⟨(claimC7 goodWad goodFile hf 2).1.mpr (Or.inr (by decide)),
    (claimC7 goodWad goodFile hf 0).2 (by decide) (by decide)⟩

/-- Claim C3: on a constructed archive, a successful getData returns
exactly size bytes of the descriptor, and a 0-size marker lump yields a
successful empty buffer, not an error. -/
theorem claimC3 (data : List Nat) (f : WadFile) (hf : mkWadFile data = .ok f)
    (i : Int) (lump : WadLump) (hl : f.getLump i = .ok lump) :
    (∀ buf f2, f.getLumpData i = .ok (buf, f2) →
      (buf.length : Int) = lump.size ∧
      buf = (f.reader.data.drop lump.position.toNat).take lump.size.toNat) ∧
    (lump.isMarker = true → ∃ f2, f.getLumpData i = .ok ([], f2)) := by
  have hmem := getLump_ok_mem hl
  have hnn := (mkWadFile_ok hf).2.2.1 lump hmem
  constructor
  · intro buf f2 hd
    unfold WadFile.getLumpData at hd
    rw [hl] at hd
    simp only [] at hd
    cases hr : (f.reader.seek lump.position).read lump.size.toNat with
    | error e => rw [hr] at hd; exact Except.noConfusion hd
    | ok p =>
      obtain ⟨bs, r1⟩ := p
      rw [hr] at hd
      simp only [Except.ok.injEq, Prod.mk.injEq] at hd
      obtain ⟨hbs, hblen, -, -⟩ := WadReader.read_ok hr
      rw [← hd.1]
      constructor
      · rw [hblen]
        omega
      · exact hbs
  · intro hm
    have hsz : lump.size = 0 := by
      have := hm
      unfold WadLump.isMarker at this
      simpa using this
    unfold WadFile.getLumpData
    rw [hl]
    simp only []
    rw [hsz]
    rw [show ((0 : Int).toNat) = 0 from rfl]
    rw [WadReader.read_zero]
    exact ⟨_, rfl⟩

/-- Witness for C3 on a concrete archive: the marker lump at index 1
returns an empty buffer; the 2-byte lump at index 0 returns 2 bytes. -/
theorem claimC3_witness :
    (∃ f2, goodFile.getLumpData 1 = .ok ([], f2)) ∧
    (∀ buf f2, goodFile.getLumpData 0 = .ok (buf, f2) → (buf.length : Int) = 2) := by
  have hf : mkWadFile goodWad = .ok goodFile := by rfl
  have h1 := claimC3 goodWad goodFile hf 1 ⟨46, 0, e1m1Name⟩ (by rfl)
  have h0 := claimC3 goodWad goodFile hf 0 ⟨44, 2, thingsName⟩ (by rfl)
  exact ⟨h1.2 (by rfl), fun buf f2 hd => (h0.1 buf f2 hd).1⟩

/-- Claim C9: an index returned by findByName on a constructed archive
is in [0, lump_count) and its descriptor bears the searched name; hence
a handle returned by resolve never makes the descriptor lookup fail
with OutOfRange. -/
theorem claimC9 :
    (∀ (data : List Nat) (f : WadFile) (name : List Nat) (j : Int),
      mkWadFile data = .ok f → f.searchLump name = some j →
      0 ≤ j ∧ j < f.header.num_lumps ∧ ∃ l, f.getLump j = .ok l ∧ l.name = name) ∧
    (∀ (m : WadManager) (name : List Nat) (idx : LumpIndex),
      (∀ f ∈ m.files, ∃ data, mkWadFile data = .ok f) →
      m.getLumpIndex name = .ok idx →
      ∃ f, m.files.get? idx.wad = some f ∧
        ∃ l, f.getLump idx.lump = .ok l ∧ l.name = name) := by
  have part1 : ∀ (data : List Nat) (f : WadFile) (name : List Nat) (j : Int),
      mkWadFile data = .ok f → f.searchLump name = some j →
      0 ≤ j ∧ j < f.header.num_lumps ∧ ∃ l, f.getLump j = .ok l ∧ l.name = name := by
    intro data f name j hf hsj
    obtain ⟨hinv, hlen, -, hnl, -⟩ := mkWadFile_ok hf
    have hmap : lookupMap f.directory.lump_map name = some j := hsj
    rw [hinv name] at hmap
    obtain ⟨k, hk, hjk⟩ := Option.map_eq_some'.mp hmap
    obtain ⟨hlt, ⟨l, hget, hname⟩, -⟩ := specFirstIndex_some hk
    subst hjk
    rw [show Int.ofNat k = (k : Int) from rfl]
    refine ⟨by omega, by omega, ?_⟩
    show ∃ l0, f.directory.getLump (k : Int) = .ok l0 ∧ l0.name = name
    unfold WadDirectory.getLump
    split
    · rename_i hcond
      exfalso
      omega
    · refine ⟨_, rfl, ?_⟩
      have hgg : f.directory.lumps.get? (((k : Int)).toNat) = some l := hget
      have hname2 : ∀ hb : ((k : Int)).toNat < f.directory.lumps.length,
          (f.directory.lumps.get ⟨((k : Int)).toNat, hb⟩).name = name := by
        intro hb
        have hq := List.get?_eq_get hb
        rw [hgg] at hq
        injection hq with hq
        rw [← hq]
        exact hname
      exact hname2 _
  refine ⟨part1, ?_⟩
  intro m name idx hall h
  have hs : m.searchLump name = some idx := by
    unfold WadManager.getLumpIndex at h
    cases hs2 : m.searchLump name with
    | none => rw [hs2] at h; exact Except.noConfusion h
    | some idx0 =>
      rw [hs2] at h
      simp only [Except.ok.injEq] at h
      rw [h]
  obtain ⟨i, l⟩ := idx
  obtain ⟨k, hik, ⟨f, hget, hsl⟩, -⟩ := (searchLumpAux_char m.files 0 name i l).mp hs
  have hki : k = i := by omega
  subst hki
  obtain ⟨data2, hdata⟩ := hall f (List.get?_mem hget)
  obtain ⟨-, -, hgl⟩ := part1 data2 f name l hdata hsl
  exact ⟨f, hget, hgl⟩

/-- Witness for C9: resolving THINGS in a one-archive set yields a
handle whose descriptor lookup succeeds with the right name. -/
theorem claimC9_witness :
    ∃ f, (WadManager.mk [goodFile]).files.get? 0 = some f ∧
      ∃ l, f.getLump 0 = .ok l ∧ l.name = thingsName := by
  have hall : ∀ f ∈ (WadManager.mk [goodFile]).files, ∃ data, mkWadFile data = .ok f := by
    intro f hf
    simp only [List.mem_singleton] at hf
    subst hf
    exact ⟨goodWad, by rfl⟩
  exact claimC9.2 (WadManager.mk [goodFile]) thingsName ⟨0, 0⟩ hall (by rfl)

/-- Claim C1: resolve (getLumpIndex) returns the handle of the first
archive, in sequence order from index 0, whose directory contains the
name; so with archives [A, B] both containing X the handle is in A. -/
theorem claimC1 (m : WadManager) (name : List Nat) (i : Nat) (l : Int) :
    m.getLumpIndex name = .ok ⟨i, l⟩ ↔
      ((∃ f, m.files.get? i = some f ∧ f.searchLump name = some l) ∧
        ∀ j, j < i → ∀ g, m.files.get? j = some g → g.searchLump name = none) := by
  constructor
  · intro h
    have hs : m.searchLump name = some ⟨i, l⟩ := by
      unfold WadManager.getLumpIndex at h
      cases hs2 : m.searchLump name with
      | none => rw [hs2] at h; exact Except.noConfusion h
      | some idx0 =>
        rw [hs2] at h
        simp only [Except.ok.injEq] at h
        rw [h]
    obtain ⟨k, hik, hex, hfirst⟩ := (searchLumpAux_char m.files 0 name i l).mp hs
    have hki : k = i := by omega
    subst hki
    exact ⟨hex, hfirst⟩
  · rintro ⟨hex, hfirst⟩
    have hs : m.searchLump name = some ⟨i, l⟩ :=
      (searchLumpAux_char m.files 0 name i l).mpr ⟨i, by omega, hex, hfirst⟩
    unfold WadManager.getLumpIndex
    rw [hs]

/-- Witness for C1: two concrete archives both holding a lump named XX;
the handle comes from the first. -/
theorem claimC1_witness :
    (WadManager.mk [tinyFileA, tinyFileB]).getLumpIndex [88, 88] = .ok ⟨0, 0⟩ := by
  refine (claimC1 (WadManager.mk [tinyFileA, tinyFileB]) [88, 88] 0 0).mpr
    ⟨⟨tinyFileA, rfl, rfl⟩, ?_⟩
  intro j hj g hg
  exact absurd hj (Nat.not_lt_zero j)

/-- Claim C8: contains (hasLump) is true exactly when some archive in
the sequence holds the name, and resolve fails with NotFound naming the
lump exactly when contains is false. -/
theorem claimC8 (m : WadManager) (name : List Nat) :
    (m.hasLump name = true ↔ ∃ f ∈ m.files, f.searchLump name ≠ none) ∧
    (m.getLumpIndex name = .error (.notFound name) ↔ m.hasLump name = false) := by
  have hnone : m.searchLump name = none ↔ ∀ f ∈ m.files, f.searchLump name = none :=
    searchLumpAux_none m.files 0 name
  constructor
  · unfold WadManager.hasLump
    cases hs : m.searchLump name with
    | none =>
      simp only [Option.isSome_none]
      constructor
      · intro hcontra
        exact absurd hcontra (by simp)
      · rintro ⟨f, hf, hne⟩
        exact absurd (hnone.mp hs f hf) hne
    | some idx =>
      simp only [Option.isSome_some]
      constructor
      · intro _
        obtain ⟨i, l⟩ := idx
        obtain ⟨k, hik, ⟨f, hget, hsl⟩, -⟩ := (searchLumpAux_char m.files 0 name i l).mp hs
        refine ⟨f, List.get?_mem hget, ?_⟩
        rw [hsl]
        simp
      · intro _
        trivial
  · unfold WadManager.getLumpIndex WadManager.hasLump
    cases hs : m.searchLump name with
    | none =>
      exact ⟨fun _ => rfl, fun _ => rfl⟩
    | some idx =>
      constructor
      · intro hcontra
        exact Except.noConfusion hcontra
      · intro hcontra
        exact Bool.noConfusion hcontra

/-- Witness for C8: a name absent from the only archive gives NotFound. -/
theorem claimC8_witness :
    (WadManager.mk [tinyFileA]).getLumpIndex [90, 90] = .error (.notFound [90, 90]) :=
  (claimC8 (WadManager.mk [tinyFileA]) [90, 90]).2.mpr (by rfl)

/-- Claim C6: a failed addArchive (addWad) leaves the set exactly as
before; a successful one appends the new archive at the end, keeping
the earlier archives unchanged. -/
theorem claimC6 (m : WadManager) (wad_file : List Nat) :
    ((m.addWad wad_file).2.isSome = true → (m.addWad wad_file).1 = m) ∧
    (∀ f, mkWadFile wad_file = .ok f →
      (m.addWad wad_file).1 = ⟨m.files ++ [f]⟩ ∧ (m.addWad wad_file).2 = none) := by
  unfold WadManager.addWad
  cases hmk : mkWadFile wad_file with
  | error e =>
    refine ⟨fun _ => rfl, ?_⟩
    intro f hf
    exact Except.noConfusion hf
  | ok f0 =>
    constructor
    · intro hcontra
      exact absurd hcontra (by simp)
    · intro f hf
      injection hf with hf
      subst hf
      exact ⟨rfl, rfl⟩

/-- Witness for C6: adding a file with a bad tag to an empty set leaves
the set unchanged. -/
theorem claimC6_witness :
    ((WadManager.mk []).addWad badTagWad).1 = WadManager.mk [] :=
  (claimC6 (WadManager.mk []) badTagWad).1 (by rfl)

/-- Claim C4: header construction from 12 available bytes succeeds
exactly when the 4-byte tag is IWAD or PWAD, the lump count is positive
and the directory offset is positive; otherwise the single surfaced
error is chosen in check order: tag, then lump count, then offset. -/
theorem claimC4 (r : WadReader) (h12 : 12 ≤ r.data.length - r.pos) :
    ((∃ x, mkWadHeader r = .ok x) ↔
      (((r.data.drop r.pos).take 4 = iwadId ∨ (r.data.drop r.pos).take 4 = pwadId) ∧
        0 < toSigned32 (bytesLE ((r.data.drop (r.pos + 4)).take 4)) ∧
        0 < toSigned32 (bytesLE ((r.data.drop (r.pos + 8)).take 4)))) ∧
    ((¬ (r.data.drop r.pos).take 4 = iwadId ∧ ¬ (r.data.drop r.pos).take 4 = pwadId) →
      mkWadHeader r = .error .invalidId) ∧
    (((r.data.drop r.pos).take 4 = iwadId ∨ (r.data.drop r.pos).take 4 = pwadId) →
      toSigned32 (bytesLE ((r.data.drop (r.pos + 4)).take 4)) ≤ 0 →
      mkWadHeader r = .error .invalidNumLumps) ∧
    (((r.data.drop r.pos).take 4 = iwadId ∨ (r.data.drop r.pos).take 4 = pwadId) →
      0 < toSigned32 (bytesLE ((r.data.drop (r.pos + 4)).take 4)) →
      toSigned32 (bytesLE ((r.data.drop (r.pos + 8)).take 4)) ≤ 0 →
      mkWadHeader r = .error .invalidDirOfs) := by
  have hx : ((r.data.drop r.pos).take 4).length = 4 := by
    simp only [List.length_take, List.length_drop]
    omega
  have hbr := trimTag_iff hx
  rw [mkWadHeader_eq r h12]
  by_cases hid : ((r.data.drop r.pos).take 4 = iwadId ∨ (r.data.drop r.pos).take 4 = pwadId)
  · have htag : ¬(((r.data.drop r.pos).take 4).takeWhile (fun b => b != 0) ≠ iwadId ∧
        ((r.data.drop r.pos).take 4).takeWhile (fun b => b != 0) ≠ pwadId) := by
      rw [not_and_or, not_not, not_not]
      exact hbr.mpr hid
    rw [if_neg htag]
    by_cases hnl : toSigned32 (bytesLE ((r.data.drop (r.pos + 4)).take 4)) ≤ 0
    · rw [if_pos hnl]
      refine ⟨?_, ?_, ?_, ?_⟩
      · constructor
        · rintro ⟨x, hx2⟩
          exact Except.noConfusion hx2
        · rintro ⟨-, hpos, -⟩
          exfalso
          omega
      · rintro ⟨ha, hb⟩
        exfalso
        tauto
      · intro _ _
        rfl
      · intro _ hpos _
        exfalso
        omega
    · rw [if_neg hnl]
      by_cases hofs : toSigned32 (bytesLE ((r.data.drop (r.pos + 8)).take 4)) ≤ 0
      · rw [if_pos hofs]
        refine ⟨?_, ?_, ?_, ?_⟩
        · constructor
          · rintro ⟨x, hx2⟩
            exact Except.noConfusion hx2
          · rintro ⟨-, -, hpos2⟩
            exfalso
            omega
        · rintro ⟨ha, hb⟩
          exfalso
          tauto
        · intro _ hle
          exfalso
          omega
        · intro _ _ _
          rfl
      · rw [if_neg hofs]
        refine ⟨?_, ?_, ?_, ?_⟩
        · constructor
          · intro _
            exact ⟨hid, by omega, by omega⟩
          · intro _
            exact ⟨_, rfl⟩
        · rintro ⟨ha, hb⟩
          exfalso
          tauto
        · intro _ hle
          exfalso
          omega
        · intro _ _ hle
          exfalso
          omega
  · have hnottrim : ¬(((r.data.drop r.pos).take 4).takeWhile (fun b => b != 0) = iwadId ∨
        ((r.data.drop r.pos).take 4).takeWhile (fun b => b != 0) = pwadId) :=
      fun hcontra => hid (hbr.mp hcontra)
    have htag : ((r.data.drop r.pos).take 4).takeWhile (fun b => b != 0) ≠ iwadId ∧
        ((r.data.drop r.pos).take 4).takeWhile (fun b => b != 0) ≠ pwadId :=
      ⟨fun h1 => hnottrim (Or.inl h1), fun h2 => hnottrim (Or.inr h2)⟩
    rw [if_pos htag]
    refine ⟨?_, ?_, ?_, ?_⟩
    · constructor
      · rintro ⟨x, hx2⟩
        exact Except.noConfusion hx2
      · rintro ⟨htag2, -⟩
        exact absurd htag2 hid
    · intro _
      rfl
    · intro htag2 _
      exact absurd htag2 hid
    · intro htag2 _ _
      exact absurd htag2 hid

/-- Witness for C4: a ZWAD tag fails with the id error; a good header
succeeds. -/
theorem claimC4_witness :
    mkWadHeader ⟨badTagWad, 0⟩ = .error .invalidId ∧
      ∃ x, mkWadHeader ⟨goodWad, 0⟩ = .ok x := by
  constructor
  · exact (claimC4 ⟨badTagWad, 0⟩ (by decide)).2.1 (by decide)
  · exact (claimC4 ⟨goodWad, 0⟩ (by decide)).1.mpr (by decide)

/-- Claim C5: when the directory scan reaches a descriptor whose
decoded position or size is negative, the whole archive construction
fails with the InvalidFormat error naming that lump; no archive value
(and none of the earlier valid lumps) is produced. -/
theorem claimC5 (data : List Nat) (header : WadHeader) (r1 : WadReader)
    (hh : mkWadHeader ⟨data, 0⟩ = .ok (header, r1))
    (k : Nat) (hk : k < header.num_lumps.toNat)
    (lumps : List WadLump) (lmap : List (List Nat × Int)) (r2 : WadReader)
    (hpre : readLumps (r1.seek header.directory_ofs) [] [] 0 k = .ok (lumps, lmap, r2))
    (p s : Int) (name : List Nat) (r3 r4 r5 : WadReader)
    (hp : r2.readInt = .ok (p, r3)) (hs : r3.readInt = .ok (s, r4))
    (hn : r4.readString 8 = .ok (name, r5))
    (hneg : p < 0 ∨ s < 0) :
    mkWadFile data =
        .error (if p < 0 then .invalidLumpPos name else .invalidLumpSize name) ∧
      WadErr.isInvalidFormat
        (if p < 0 then .invalidLumpPos name else .invalidLumpSize name) = true := by
  have hlump : mkWadLump r2 =
      .error (if p < 0 then .invalidLumpPos name else .invalidLumpSize name) := by
    unfold mkWadLump
    rw [hp]
    simp only []
    rw [hs]
    simp only []
    rw [hn]
    simp only []
    by_cases hp0 : p < 0
    · rw [if_pos hp0, if_pos hp0]
    · rw [if_neg hp0, if_neg hp0, if_pos (show s < 0 by omega)]
  have hsplit := readLumps_split k (header.num_lumps.toNat - k)
    (r1.seek header.directory_ofs) [] [] 0
  have htot : k + (header.num_lumps.toNat - k) = header.num_lumps.toNat := by omega
  rw [htot, hpre] at hsplit
  simp only [] at hsplit
  have hb : header.num_lumps.toNat - k = (header.num_lumps.toNat - k - 1) + 1 := by omega
  rw [hb, readLumps, hlump] at hsplit
  constructor
  · unfold mkWadFile
    rw [hh]
    simp only []
    unfold mkWadDirectory
    rw [hsplit]
  · by_cases hp0 : p < 0
    · rw [if_pos hp0]
      rfl
    · rw [if_neg hp0]
      rfl

/-- Witness for C5: a concrete archive whose only descriptor has
position -1 fails with the error naming lump XX. -/
theorem claimC5_witness :
    mkWadFile badWadNegPos = .error (.invalidLumpPos [88, 88]) := by
  have h := claimC5 badWadNegPos ⟨pwadId, 1, 12⟩ ⟨badWadNegPos, 12⟩ (by rfl)
    0 (by decide) [] [] ⟨badWadNegPos, 12⟩ (by rfl)
    (-1) 0 [88, 88] ⟨badWadNegPos, 16⟩ ⟨badWadNegPos, 20⟩ ⟨badWadNegPos, 28⟩
    (by rfl) (by rfl) (by rfl) (Or.inl (by decide))
  exact h.1

/-- Claim C10: handle plus increment keeps the archive index, advances
the lump index by 32-bit signed addition, and the mixed-order form
n + h is defined to equal h + n. -/
theorem claimC10 (h : LumpIndex) (n : Int) :
    (h.add n).wad = h.wad ∧ (h.add n).lump = int32wrap (h.lump + n) ∧
      LumpIndex.addLeft n h = h.add n :=
  ⟨rfl, rfl, rfl⟩
